import Mathlib

/-!
Verification of the two early-boot memory allocators of this repository:
the double-ended bump allocator (module bump_allocator, type EarlyAllocator)
and the free-list byte allocator (lab_allocator, type LabByteAllocator).

Machine integers (usize) are modelled as natural numbers with explicit
wrap-around modulo 2 ^ 64 at every arithmetic operation, matching the
release-mode semantics of the Rust source.  Bitwise alignment arithmetic
is modelled with Nat.land against the 64-bit complement mask, exactly as
the source writes it.
-/

set_option maxHeartbeats 1000000

namespace Alloc

/-- The size of the usize machine word: 2 ^ 64. -/
def WORD : Nat := 2 ^ 64

/-- Wrapping 64-bit addition. -/
def wadd (a b : Nat) : Nat := (a + b) % WORD

/-- Wrapping 64-bit subtraction. -/
def wsub (a b : Nat) : Nat := (a % WORD + (WORD - b % WORD)) % WORD

/-- Wrapping 64-bit multiplication. -/
def wmul (a b : Nat) : Nat := (a * b) % WORD

/-- Bitwise complement on 64 bits: the Rust expression !a for a : usize. -/
def wnot (a : Nat) : Nat := WORD - 1 - a % WORD

/-- The Rust alignment idiom (x + align - 1) & !(align - 1), on 64 bits.
Wraps like release-mode Rust (align is at least 1 in every use). -/
def roundUpTo (x align : Nat) : Nat := ((x + align - 1) % WORD) &&& wnot (align - 1)

/-- The Rust alignment idiom x & !(align - 1), on 64 bits. -/
def roundDownTo (x align : Nat) : Nat := (x % WORD) &&& wnot (align - 1)

/-- The error type of the allocator crate (AllocError). -/
inductive AllocError where
  | InvalidParam
  | MemoryOverlap
  | NoMemory
  | NotAllocated
deriving DecidableEq, Repr

deriving instance DecidableEq for Except

/-- Arithmetic round-down, as the spec words it: the largest multiple of
align that is at most x. -/
def specRoundDown (x align : Nat) : Nat := x - x % align

/-- Arithmetic round-up, as the spec words it: the smallest multiple of
align that is at least x. -/
def specRoundUp (x align : Nat) : Nat := align * ((x + align - 1) / align)

/-- A decidable power-of-two test for usize values: a = 2 ^ k for some k < 64. -/
def Pow2 (a : Nat) : Bool := (List.range 64).any fun k => a = 2 ^ k

theorem pow2_elim {a : Nat} (h : Pow2 a = true) : ∃ k, k < 64 ∧ a = 2 ^ k := by
  rcases List.any_eq_true.mp h with ⟨k, hk, ha⟩
  exact ⟨k, List.mem_range.mp hk, by exact_mod_cast of_decide_eq_true ha⟩

theorem pow2_le {a : Nat} (h : Pow2 a = true) : a ≤ 2 ^ 63 := by
  obtain ⟨k, hk, rfl⟩ := pow2_elim h
  exact Nat.pow_le_pow_right (by omega) (by omega)

theorem pow2_pos {a : Nat} (h : Pow2 a = true) : 0 < a := by
  obtain ⟨k, _, rfl⟩ := pow2_elim h
  exact Nat.pos_pow_of_pos k (by omega)

/-- Core mask identity: for v < 2 ^ 64 and k ≤ 64, masking with the 64-bit
complement of 2 ^ k - 1 rounds v down to a multiple of 2 ^ k. -/
theorem land_mask (v k : Nat) (hv : v < 2 ^ 64) (hk : k ≤ 64) :
    v &&& (2 ^ 64 - 2 ^ k) = 2 ^ k * (v / 2 ^ k) := by
  have h1 : 2 ^ 64 - 2 ^ k = (2 ^ (64 - k) - 1) <<< k := by
    rw [Nat.shiftLeft_eq, Nat.sub_mul, one_mul, ← pow_add, Nat.sub_add_cancel hk]
  have h2 : 2 ^ k * (v / 2 ^ k) = (v >>> k) <<< k := by
    rw [Nat.shiftLeft_eq, Nat.shiftRight_eq_div_pow, mul_comm]
  rw [h1, h2]
  apply Nat.eq_of_testBit_eq
  intro i
  rw [Nat.testBit_and, Nat.testBit_shiftLeft, Nat.testBit_shiftLeft,
    Nat.testBit_shiftRight, Nat.testBit_two_pow_sub_one]
  by_cases hki : k ≤ i
  · have hik : k + (i - k) = i := by omega
    rw [hik]
    by_cases hi64 : i < 64
    · simp [hki, Nat.lt_sub_of_add_lt, show i - k < 64 - k by omega]
    · have : v.testBit i = false := Nat.testBit_lt_two_pow
        (lt_of_lt_of_le hv (Nat.pow_le_pow_right (by omega) (by omega)))
      simp [this]
  · simp [hki]

theorem wnot_pow2_sub_one {k : Nat} (hk : k ≤ 64) :
    wnot (2 ^ k - 1) = 2 ^ 64 - 2 ^ k := by
  have hle : (2:Nat) ^ k ≤ 2 ^ 64 := Nat.pow_le_pow_right (by omega) hk
  have h2 : (0:Nat) < 2 ^ k := Nat.pos_pow_of_pos k (by omega)
  have h1 : (2 ^ k - 1) % 2 ^ 64 = 2 ^ k - 1 := Nat.mod_eq_of_lt (by omega)
  simp only [wnot, WORD]
  rw [h1]
  omega

/-- roundDownTo with a power-of-two alignment is arithmetic rounding down. -/
theorem roundDownTo_eq (x k : Nat) (hx : x < 2 ^ 64) (hk : k ≤ 64) :
    roundDownTo x (2 ^ k) = 2 ^ k * (x / 2 ^ k) := by
  rw [roundDownTo, wnot_pow2_sub_one hk, Nat.mod_eq_of_lt (by simpa [WORD] using hx)]
  exact land_mask x k hx hk

/-- roundUpTo with a power-of-two alignment is arithmetic rounding up,
provided the intermediate sum does not wrap. -/
theorem roundUpTo_eq (x k : Nat) (hx : x + 2 ^ k - 1 < 2 ^ 64) (hk : k ≤ 64) :
    roundUpTo x (2 ^ k) = 2 ^ k * ((x + 2 ^ k - 1) / 2 ^ k) := by
  rw [roundUpTo, wnot_pow2_sub_one hk, Nat.mod_eq_of_lt (by simpa [WORD] using hx)]
  exact land_mask _ k hx hk

theorem le_roundUpTo (x k : Nat) (hx : x + 2 ^ k - 1 < 2 ^ 64) (hk : k ≤ 64) :
    x ≤ roundUpTo x (2 ^ k) := by
  rw [roundUpTo_eq x k hx hk]
  have h2 : (0:Nat) < 2 ^ k := Nat.pos_pow_of_pos k (by omega)
  have hdm := Nat.div_add_mod (x + 2 ^ k - 1) (2 ^ k)
  have hlt := Nat.mod_lt (x + 2 ^ k - 1) h2
  omega

theorem roundUpTo_le (x k : Nat) (hx : x + 2 ^ k - 1 < 2 ^ 64) (hk : k ≤ 64) :
    roundUpTo x (2 ^ k) ≤ x + 2 ^ k - 1 := by
  rw [roundUpTo_eq x k hx hk]
  exact Nat.mul_div_le _ _

/-- roundUpTo stays below 2 ^ 63 when its argument does (power-of-two case,
alignment at most 2 ^ 63). -/
theorem roundUpTo_le_word (x k : Nat) (hx : x ≤ 2 ^ 63) (hk : k ≤ 63) :
    roundUpTo x (2 ^ k) ≤ 2 ^ 63 := by
  have hkk : (2:Nat) ^ k ≤ 2 ^ 63 := Nat.pow_le_pow_right (by omega) hk
  have hx64 : x + 2 ^ k - 1 < 2 ^ 64 := by
    have : (2:Nat) ^ 63 + 2 ^ 63 = 2 ^ 64 := by norm_num
    omega
  rw [roundUpTo_eq x k hx64 (by omega)]
  have h2 : (0:Nat) < 2 ^ k := Nat.pos_pow_of_pos k (by omega)
  have hq : (x + 2 ^ k - 1) / 2 ^ k ≤ 2 ^ (63 - k) := by
    have hsplit : x + 2 ^ k - 1 ≤ 2 ^ k * 2 ^ (63 - k) + (2 ^ k - 1) := by
      rw [← pow_add]
      have : k + (63 - k) = 63 := by omega
      rw [this]; omega
    calc (x + 2 ^ k - 1) / 2 ^ k ≤ (2 ^ k * 2 ^ (63 - k) + (2 ^ k - 1)) / 2 ^ k :=
          Nat.div_le_div_right hsplit
      _ = 2 ^ (63 - k) + (2 ^ k - 1) / 2 ^ k := Nat.mul_add_div h2 _ _
      _ = 2 ^ (63 - k) := by rw [Nat.div_eq_of_lt (by omega), Nat.add_zero]
  calc 2 ^ k * ((x + 2 ^ k - 1) / 2 ^ k) ≤ 2 ^ k * 2 ^ (63 - k) :=
        Nat.mul_le_mul_left _ hq
    _ = 2 ^ 63 := by rw [← pow_add]; congr 1; omega

theorem roundDownTo_le (x k : Nat) (hx : x < 2 ^ 64) (hk : k ≤ 64) :
    roundDownTo x (2 ^ k) ≤ x := by
  rw [roundDownTo_eq x k hx hk]
  exact Nat.mul_div_le _ _

theorem wadd_eq {a b : Nat} (h : a + b < 2 ^ 64) : wadd a b = a + b := by
  simp only [wadd, WORD]
  exact Nat.mod_eq_of_lt (by omega)

theorem wsub_eq {a b : Nat} (hb : b ≤ a) (ha : a < 2 ^ 64) : wsub a b = a - b := by
  have hbw : b < 2 ^ 64 := lt_of_le_of_lt hb ha
  simp only [wsub, WORD, Nat.mod_eq_of_lt ha, Nat.mod_eq_of_lt hbw]
  have h1 : a + (2 ^ 64 - b) = (a - b) + 2 ^ 64 := by omega
  rw [h1, Nat.add_mod_right, Nat.mod_eq_of_lt (by omega)]

theorem wmul_eq {a b : Nat} (h : a * b < 2 ^ 64) : wmul a b = a * b := by
  simp only [wmul, WORD]
  exact Nat.mod_eq_of_lt (by omega)

theorem wsub_self (a : Nat) : wsub a a = 0 := by
  simp only [wsub, WORD]
  have h : a % 2 ^ 64 < 2 ^ 64 := Nat.mod_lt _ (by norm_num)
  have h1 : a % 2 ^ 64 + (2 ^ 64 - a % 2 ^ 64) = 2 ^ 64 := by omega
  rw [h1, Nat.mod_self]

/-!
Double-ended bump allocator: modules/bump_allocator/src/lib.rs, type
EarlyAllocator<PAGE_SIZE>.  The const generic PAGE_SIZE is passed as an
explicit argument PS to the page-side operations.
-/

/-- State of EarlyAllocator: managed range [start, end), byte cursor b_pos
growing upward, page cursor p_pos growing downward, count of live byte
allocations.  The Rust field end is called end_ (end is a Lean keyword). -/
structure EA where
  start : Nat
  end_ : Nat
  b_pos : Nat
  p_pos : Nat
  count : Nat
deriving DecidableEq, Repr

namespace EA

/-- BaseAllocator::init for EarlyAllocator. -/
def init (start size : Nat) : EA :=
  { start := start, end_ := wadd start size, b_pos := start,
    p_pos := wadd start size, count := 0 }

/-- EarlyAllocator::can_alloc_bytes. -/
def can_alloc_bytes (s : EA) (size align : Nat) : Bool :=
  decide (wadd (roundUpTo s.b_pos align) size ≤ s.p_pos)

/-- EarlyAllocator::can_alloc_pages (align_pow2 is used as passed in). -/
def can_alloc_pages (PS : Nat) (s : EA) (num_pages align_pow2 : Nat) : Bool :=
  decide (roundDownTo (wsub s.p_pos (wmul num_pages PS)) align_pow2 ≥ s.b_pos)

/-- ByteAllocator::alloc for EarlyAllocator. -/
def alloc (s : EA) (size align : Nat) : EA × Except AllocError Nat :=
  if s.can_alloc_bytes size align then
    let aligned_pos := roundUpTo s.b_pos align
    ({ s with b_pos := wadd aligned_pos size, count := wadd s.count 1 }, .ok aligned_pos)
  else (s, .error .NoMemory)

/-- ByteAllocator::dealloc for EarlyAllocator: the address and layout are
ignored by the source, so they are not parameters of the model. -/
def dealloc (s : EA) : EA :=
  let count := s.count - 1
  if count = 0 then { s with count := count, b_pos := s.start }
  else { s with count := count }

/-- PageAllocator::alloc_pages for EarlyAllocator. -/
def alloc_pages (PS : Nat) (s : EA) (num_pages align_pow2 : Nat) : EA × Except AllocError Nat :=
  let align := max align_pow2 PS
  if s.can_alloc_pages PS num_pages align then
    let size := wmul num_pages PS
    let aligned_pos := roundDownTo (wsub s.p_pos size) align
    ({ s with p_pos := aligned_pos }, .ok aligned_pos)
  else (s, .error .NoMemory)

/-- BaseAllocator::add_memory for EarlyAllocator is todo!(): it panics and
never returns.  A panic is modelled as none; a normal return of a result
r from state t would be some (t, r). -/
def add_memory (s : EA) (start size : Nat) : Option (EA × Except AllocError Unit) :=
  none

/-- ByteAllocator::total_bytes. -/
def total_bytes (s : EA) : Nat := wsub s.end_ s.start

/-- ByteAllocator::used_bytes. -/
def used_bytes (s : EA) : Nat := wsub s.b_pos s.start

/-- ByteAllocator::available_bytes. -/
def available_bytes (s : EA) : Nat := wsub s.p_pos s.b_pos

/-- The claimed cursor invariant of the bump allocator, plus the bound
end_ ≤ 2 ^ 63 which makes all the arithmetic exact. -/
def WF (s : EA) : Prop :=
  s.start ≤ s.b_pos ∧ s.b_pos ≤ s.p_pos ∧ s.p_pos ≤ s.end_ ∧ s.end_ ≤ 2 ^ 63

instance (s : EA) : Decidable (s.WF) := by unfold WF; infer_instance

theorem init_WF {start size : Nat} (h : start + size ≤ 2 ^ 63) :
    (init start size).WF ∧ (init start size).end_ = start + size := by
  have hw : wadd start size = start + size := wadd_eq (by
    have : (2:Nat) ^ 63 < 2 ^ 64 := by norm_num
    omega)
  refine ⟨⟨?_, ?_, ?_, ?_⟩, ?_⟩ <;> simp [init, hw] <;> omega

/-- Exact characterization of a byte allocation from a well-formed state
with a valid layout: the rounded cursor, the success case and the failure
case, with all arithmetic exact. -/
theorem alloc_spec (s : EA) (size align : Nat) (hWF : s.WF)
    (hal : Pow2 align = true) (hsz : size < 2 ^ 63) :
    s.b_pos ≤ roundUpTo s.b_pos align ∧ roundUpTo s.b_pos align ≤ 2 ^ 63 ∧
    (roundUpTo s.b_pos align + size ≤ s.p_pos →
      s.alloc size align =
        ({ s with b_pos := roundUpTo s.b_pos align + size, count := wadd s.count 1 },
          .ok (roundUpTo s.b_pos align))) ∧
    (s.p_pos < roundUpTo s.b_pos align + size →
      s.alloc size align = (s, .error .NoMemory)) := by
  obtain ⟨k, hk, rfl⟩ := pow2_elim hal
  have hb63 : s.b_pos ≤ 2 ^ 63 := by
    rcases hWF with ⟨h1, h2, h3, h4⟩; omega
  have h2k : (2:Nat) ^ k ≤ 2 ^ 63 := Nat.pow_le_pow_right (by omega) (by omega)
  have hx : s.b_pos + 2 ^ k - 1 < 2 ^ 64 := by
    have : (2:Nat) ^ 63 + 2 ^ 63 = 2 ^ 64 := by norm_num
    have : (0:Nat) < 2 ^ k := Nat.pos_pow_of_pos k (by omega)
    omega
  have hle : s.b_pos ≤ roundUpTo s.b_pos (2 ^ k) := le_roundUpTo _ k hx (by omega)
  have hub : roundUpTo s.b_pos (2 ^ k) ≤ 2 ^ 63 := roundUpTo_le_word _ k hb63 (by omega)
  have hwadd : wadd (roundUpTo s.b_pos (2 ^ k)) size = roundUpTo s.b_pos (2 ^ k) + size :=
    wadd_eq (by
      have : (2:Nat) ^ 63 + 2 ^ 63 = 2 ^ 64 := by norm_num
      omega)
  refine ⟨hle, hub, ?_, ?_⟩
  · intro hfit
    simp only [alloc, can_alloc_bytes, hwadd]
    rw [if_pos (by exact decide_eq_true hfit)]
  · intro hnofit
    simp only [alloc, can_alloc_bytes, hwadd]
    rw [if_neg (by simp; omega)]

theorem alloc_WF {s : EA} {size align : Nat} (hWF : s.WF)
    (hal : Pow2 align = true) (hsz : size < 2 ^ 63) :
    (s.alloc size align).1.WF := by
  obtain ⟨hle, hub, hok, herr⟩ := alloc_spec s size align hWF hal hsz
  rcases hWF with ⟨h1, h2, h3, h4⟩
  by_cases hfit : roundUpTo s.b_pos align + size ≤ s.p_pos
  · rw [hok hfit]
    exact ⟨by simp; omega, by simp; omega, by simp; omega, by simp; omega⟩
  · rw [herr (by omega)]
    exact ⟨h1, h2, h3, h4⟩

theorem dealloc_WF {s : EA} (hWF : s.WF) : (s.dealloc).WF := by
  rcases hWF with ⟨h1, h2, h3, h4⟩
  unfold dealloc WF
  by_cases h : s.count - 1 = 0 <;> simp only [h, if_true, if_false, reduceIte] <;>
    simp <;> omega

theorem max_pow2 {a b : Nat} (ha : Pow2 a = true) (hb : Pow2 b = true) :
    ∃ m, m < 64 ∧ max a b = 2 ^ m := by
  obtain ⟨k, hk, rfl⟩ := pow2_elim ha
  obtain ⟨j, hj, rfl⟩ := pow2_elim hb
  rcases le_total k j with h | h
  · exact ⟨j, hj, by rw [max_eq_right (Nat.pow_le_pow_right (by omega) h)]⟩
  · exact ⟨k, hk, by rw [max_eq_left (Nat.pow_le_pow_right (by omega) h)]⟩

/-- Exact characterization of a page allocation from a well-formed state:
the aligned position is the arithmetic round-down of p_pos - num_pages * PS
at alignment max(align_pow2, PS), the operation succeeds exactly when that
position is at least b_pos, and fails with NoMemory otherwise. -/
theorem alloc_pages_spec (PS : Nat) (s : EA) (n ap : Nat) (hWF : s.WF)
    (hPS : Pow2 PS = true) (hap : Pow2 ap = true) (hn : n * PS ≤ s.p_pos) :
    specRoundDown (s.p_pos - n * PS) (max ap PS) ≤ s.p_pos - n * PS ∧
    (s.b_pos ≤ specRoundDown (s.p_pos - n * PS) (max ap PS) →
      alloc_pages PS s n ap =
        ({ s with p_pos := specRoundDown (s.p_pos - n * PS) (max ap PS) },
          .ok (specRoundDown (s.p_pos - n * PS) (max ap PS)))) ∧
    (specRoundDown (s.p_pos - n * PS) (max ap PS) < s.b_pos →
      alloc_pages PS s n ap = (s, .error .NoMemory)) := by
  obtain ⟨m, hm, hmax⟩ := max_pow2 hap hPS
  have hp63 : s.p_pos ≤ 2 ^ 63 := by rcases hWF with ⟨h1, h2, h3, h4⟩; omega
  have hword : (2:Nat) ^ 63 < 2 ^ 64 := by norm_num
  have hwm : wmul n PS = n * PS := wmul_eq (by omega)
  have hws : wsub s.p_pos (wmul n PS) = s.p_pos - n * PS := by
    rw [hwm]; exact wsub_eq hn (by omega)
  have hrd : roundDownTo (s.p_pos - n * PS) (max ap PS) =
      specRoundDown (s.p_pos - n * PS) (max ap PS) := by
    rw [hmax, roundDownTo_eq _ m (by omega) (by omega), specRoundDown]
    have := Nat.div_add_mod (s.p_pos - n * PS) (2 ^ m)
    omega
  have hle : specRoundDown (s.p_pos - n * PS) (max ap PS) ≤ s.p_pos - n * PS := by
    simp [specRoundDown]
  refine ⟨hle, ?_, ?_⟩
  · intro hok
    simp only [alloc_pages, can_alloc_pages, hws, hrd]
    rw [if_pos (by exact decide_eq_true hok)]
  · intro hfail
    simp only [alloc_pages, can_alloc_pages, hws, hrd]
    rw [if_neg (by simp; omega)]

theorem alloc_pages_WF {PS : Nat} {s : EA} {n ap : Nat} (hWF : s.WF)
    (hPS : Pow2 PS = true) (hap : Pow2 ap = true) (hn : n * PS ≤ s.p_pos) :
    (alloc_pages PS s n ap).1.WF := by
  obtain ⟨hle, hok, herr⟩ := alloc_pages_spec PS s n ap hWF hPS hap hn
  rcases hWF with ⟨h1, h2, h3, h4⟩
  by_cases hfit : s.b_pos ≤ specRoundDown (s.p_pos - n * PS) (max ap PS)
  · rw [hok hfit]
    exact ⟨by simp; omega, by simp; omega, by simp; omega, by simp; omega⟩
  · rw [herr (by omega)]
    exact ⟨h1, h2, h3, h4⟩

end EA

/-- An allocation request against the bump allocator: a byte request
(layout size and align) or a page request (num_pages and align_pow2). -/
inductive Req where
  | rb (size align : Nat)
  | rp (num_pages align_pow2 : Nat)
deriving DecidableEq, Repr

/-- Run a list of requests, recording an event (isByte, address, length in
bytes) for every successful allocation. -/
def runReqs (PS : Nat) : EA → List Req → EA × List (Bool × Nat × Nat)
  | s, [] => (s, [])
  | s, .rb size align :: rest =>
    match EA.alloc s size align with
    | (s₁, .ok a) =>
      ((runReqs PS s₁ rest).1, (true, a, size) :: (runReqs PS s₁ rest).2)
    | (s₁, .error _) => runReqs PS s₁ rest
  | s, .rp n ap :: rest =>
    match EA.alloc_pages PS s n ap with
    | (s₁, .ok a) =>
      ((runReqs PS s₁ rest).1, (false, a, n * PS) :: (runReqs PS s₁ rest).2)
    | (s₁, .error _) => runReqs PS s₁ rest

/-- Validity of a request trace: every byte request carries a valid layout
(power-of-two align, positive size below 2 ^ 63) and every page request a
power-of-two align_pow2, a positive count, and a page total that does not
underflow the current page cursor. -/
def goodReqs (PS : Nat) : EA → List Req → Bool
  | _, [] => true
  | s, .rb size align :: rest =>
    Pow2 align && decide (1 ≤ size) && decide (size < 2 ^ 63) &&
      goodReqs PS (EA.alloc s size align).1 rest
  | s, .rp n ap :: rest =>
    Pow2 ap && decide (1 ≤ n) && decide (n * PS ≤ s.p_pos) &&
      goodReqs PS (EA.alloc_pages PS s n ap).1 rest

/-- Addresses of the successful byte allocations, in order. -/
def byteAddrs (evs : List (Bool × Nat × Nat)) : List Nat :=
  evs.filterMap fun e => if e.1 then some e.2.1 else none

/-- Addresses of the successful page allocations, in order. -/
def pageAddrs (evs : List (Bool × Nat × Nat)) : List Nat :=
  evs.filterMap fun e => if e.1 then none else some e.2.1

/-- Two allocation events cover disjoint address regions. -/
def Disj (e₁ e₂ : Bool × Nat × Nat) : Prop :=
  e₁.2.1 + e₁.2.2 ≤ e₂.2.1 ∨ e₂.2.1 + e₂.2.2 ≤ e₁.2.1

instance : DecidableRel Disj := by unfold Disj; infer_instance

theorem byteAddrs_cons_true (a sz : Nat) (l : List (Bool × Nat × Nat)) :
    byteAddrs ((true, a, sz) :: l) = a :: byteAddrs l := by simp [byteAddrs]

theorem byteAddrs_cons_false (a sz : Nat) (l : List (Bool × Nat × Nat)) :
    byteAddrs ((false, a, sz) :: l) = byteAddrs l := by simp [byteAddrs]

theorem pageAddrs_cons_true (a sz : Nat) (l : List (Bool × Nat × Nat)) :
    pageAddrs ((true, a, sz) :: l) = pageAddrs l := by simp [pageAddrs]

theorem pageAddrs_cons_false (a sz : Nat) (l : List (Bool × Nat × Nat)) :
    pageAddrs ((false, a, sz) :: l) = a :: pageAddrs l := by simp [pageAddrs]

theorem mem_byteAddrs {y : Nat} {l : List (Bool × Nat × Nat)} (h : y ∈ byteAddrs l) :
    ∃ e ∈ l, e.1 = true ∧ e.2.1 = y := by
  obtain ⟨e, hel, hfe⟩ := List.mem_filterMap.mp h
  refine ⟨e, hel, ?_⟩
  by_cases hb : e.1 = true
  · simp [hb] at hfe; exact ⟨hb, hfe⟩
  · simp [hb] at hfe

theorem mem_pageAddrs {y : Nat} {l : List (Bool × Nat × Nat)} (h : y ∈ pageAddrs l) :
    ∃ e ∈ l, e.1 = false ∧ e.2.1 = y := by
  obtain ⟨e, hel, hfe⟩ := List.mem_filterMap.mp h
  refine ⟨e, hel, ?_⟩
  by_cases hb : e.1 = true
  · simp [hb] at hfe
  · simp [hb] at hfe; exact ⟨by simpa using hb, hfe⟩

/-- Master trace lemma for the bump allocator: along any valid request
trace from a well-formed state, the state stays well-formed, the byte
cursor never decreases, the page cursor never increases, every recorded
allocation lies in the half it was carved from, all allocated regions are
pairwise disjoint, byte addresses strictly increase and page addresses
strictly decrease. -/
theorem runReqs_master (PS : Nat) (hPS : Pow2 PS = true) :
    ∀ (l : List Req) (s : EA), s.WF → goodReqs PS s l = true →
      (runReqs PS s l).1.WF ∧
      s.b_pos ≤ (runReqs PS s l).1.b_pos ∧
      (runReqs PS s l).1.p_pos ≤ s.p_pos ∧
      (∀ e ∈ (runReqs PS s l).2,
        1 ≤ e.2.2 ∧ s.b_pos ≤ e.2.1 ∧
        (e.1 = true → e.2.1 + e.2.2 ≤ (runReqs PS s l).1.b_pos) ∧
        (e.1 = false →
          (runReqs PS s l).1.p_pos ≤ e.2.1 ∧ e.2.1 + e.2.2 ≤ s.p_pos)) ∧
      List.Pairwise Disj (runReqs PS s l).2 ∧
      List.Chain' (· < ·) (byteAddrs (runReqs PS s l).2) ∧
      List.Chain' (· > ·) (pageAddrs (runReqs PS s l).2) := by
  intro l
  induction l with
  | nil =>
    intro s hWF _
    refine ⟨hWF, le_refl _, le_refl _, ?_, ?_, ?_, ?_⟩ <;>
      simp [runReqs, byteAddrs, pageAddrs]
  | cons r rest ih =>
    intro s hWF hgood
    cases r with
    | rb size align =>
      simp only [goodReqs, Bool.and_eq_true, decide_eq_true_eq] at hgood
      obtain ⟨⟨⟨hal, hsz1⟩, hszb⟩, hgrest⟩ := hgood
      obtain ⟨hble, hub, hok, herr⟩ := EA.alloc_spec s size align hWF hal hszb
      by_cases hfit : roundUpTo s.b_pos align + size ≤ s.p_pos
      · have heq := hok hfit
        rw [heq] at hgrest
        have hWF1 := EA.alloc_WF hWF hal hszb
        rw [heq] at hWF1
        have hrun : runReqs PS s (.rb size align :: rest) =
            ((runReqs PS
                ({ s with b_pos := roundUpTo s.b_pos align + size,
                          count := wadd s.count 1 }) rest).1,
              (true, roundUpTo s.b_pos align, size) ::
              (runReqs PS
                ({ s with b_pos := roundUpTo s.b_pos align + size,
                          count := wadd s.count 1 }) rest).2) := by
          simp only [runReqs, heq]
        obtain ⟨iWF, imb, imp, ievs, ipw, icb, icp⟩ :=
          ih ({ s with b_pos := roundUpTo s.b_pos align + size,
                       count := wadd s.count 1 }) hWF1 hgrest
        simp only at imb imp ievs
        rw [hrun]
        refine ⟨iWF, ?_, ?_, ?_, ?_, ?_, ?_⟩
        · simp only; omega
        · simpa using imp
        · intro e he
          rcases List.mem_cons.mp he with rfl | he
          · exact ⟨hsz1, hble, fun _ => by simp only; omega,
              fun hb => Bool.noConfusion hb⟩
          · obtain ⟨i1, i2, i3, i4⟩ := ievs e he
            exact ⟨i1, by omega, i3, fun hb => ⟨(i4 hb).1, by have := (i4 hb).2; omega⟩⟩
        · simp only
          refine List.pairwise_cons.mpr ⟨?_, ipw⟩
          intro e he
          obtain ⟨i1, i2, i3, i4⟩ := ievs e he
          exact Or.inl (by simp only; omega)
        · simp only [byteAddrs_cons_true]
          refine List.chain'_cons'.mpr ⟨?_, icb⟩
          intro y hy
          have hymem := List.mem_of_mem_head? hy
          obtain ⟨e, he, heb, hey⟩ := mem_byteAddrs hymem
          obtain ⟨i1, i2, i3, i4⟩ := ievs e he
          omega
        · simp only [pageAddrs_cons_true]
          exact icp
      · have heq := herr (by omega)
        rw [heq] at hgrest
        have hrun : runReqs PS s (.rb size align :: rest) = runReqs PS s rest := by
          simp only [runReqs, heq]
        rw [hrun]
        exact ih s hWF hgrest
    | rp n ap =>
      simp only [goodReqs, Bool.and_eq_true, decide_eq_true_eq] at hgood
      obtain ⟨⟨⟨hap, hn1⟩, hnp⟩, hgrest⟩ := hgood
      obtain ⟨hadle, hok, herr⟩ := EA.alloc_pages_spec PS s n ap hWF hPS hap hnp
      have hPSpos : 0 < PS := pow2_pos hPS
      have hszpos : 1 ≤ n * PS := Nat.mul_pos hn1 hPSpos
      by_cases hfit : s.b_pos ≤ specRoundDown (s.p_pos - n * PS) (max ap PS)
      · have heq := hok hfit
        rw [heq] at hgrest
        have hWF1 := EA.alloc_pages_WF hWF hPS hap hnp
        rw [heq] at hWF1
        have hrun : runReqs PS s (.rp n ap :: rest) =
            ((runReqs PS
                ({ s with p_pos := specRoundDown (s.p_pos - n * PS) (max ap PS) })
                rest).1,
              (false, specRoundDown (s.p_pos - n * PS) (max ap PS), n * PS) ::
              (runReqs PS
                ({ s with p_pos := specRoundDown (s.p_pos - n * PS) (max ap PS) })
                rest).2) := by
          simp only [runReqs, heq]
        obtain ⟨iWF, imb, imp, ievs, ipw, icb, icp⟩ :=
          ih ({ s with p_pos := specRoundDown (s.p_pos - n * PS) (max ap PS) })
            hWF1 hgrest
        simp only at imb imp ievs
        rw [hrun]
        have hbp := iWF.2.1
        refine ⟨iWF, ?_, ?_, ?_, ?_, ?_, ?_⟩
        · simpa using imb
        · simp only; omega
        · intro e he
          rcases List.mem_cons.mp he with rfl | he
          · exact ⟨hszpos, hfit, fun hb => Bool.noConfusion hb,
              fun _ => ⟨by simpa using imp, by simp only; omega⟩⟩
          · obtain ⟨i1, i2, i3, i4⟩ := ievs e he
            exact ⟨i1, i2, i3, fun hb => ⟨(i4 hb).1, by have := (i4 hb).2; omega⟩⟩
        · simp only
          refine List.pairwise_cons.mpr ⟨?_, ipw⟩
          intro e he
          obtain ⟨i1, i2, i3, i4⟩ := ievs e he
          refine Or.inr ?_
          by_cases hb : e.1 = true
          · have h3 := i3 hb
            show e.2.1 + e.2.2 ≤ specRoundDown (s.p_pos - n * PS) (max ap PS)
            omega
          · have h4 := i4 (by simpa using hb)
            simp only at h4
            show e.2.1 + e.2.2 ≤ specRoundDown (s.p_pos - n * PS) (max ap PS)
            omega
        · simp only [byteAddrs_cons_false]
          exact icb
        · simp only [pageAddrs_cons_false]
          refine List.chain'_cons'.mpr ⟨?_, icp⟩
          intro y hy
          have hymem := List.mem_of_mem_head? hy
          obtain ⟨e, he, hep, hey⟩ := mem_pageAddrs hymem
          obtain ⟨i1, i2, i3, i4⟩ := ievs e he
          have h4 := i4 hep
          simp only at h4
          omega
      · have heq := herr (by omega)
        rw [heq] at hgrest
        have hrun : runReqs PS s (.rp n ap :: rest) = runReqs PS s rest := by
          simp only [runReqs, heq]
        rw [hrun]
        exact ih s hWF hgrest

/-!
Free-list byte allocator: labs/lab_allocator/src/lib.rs, type
LabByteAllocator.  The BTreeMap<usize, usize> (ptr to len) is modelled as
an association list sorted by key; iteration order of the map is key
order, which the list order realises.
-/

/-- State of LabByteAllocator: managed range [start, stop), the ordered
map of live allocations (ptr to len), and the running total used. -/
structure Lab where
  start : Nat
  stop : Nat
  inner : List (Nat × Nat)
  used : Nat
deriving DecidableEq, Repr

/-- BTreeMap::insert on a key-sorted association list: replaces the value
if the key is present, inserts at the key position otherwise. -/
def btInsert (k v : Nat) : List (Nat × Nat) → List (Nat × Nat)
  | [] => [(k, v)]
  | (p, l) :: rest =>
    if k < p then (k, v) :: (p, l) :: rest
    else if k = p then (k, v) :: rest
    else (p, l) :: btInsert k v rest

/-- BTreeMap::remove: removes the entry with the given key and returns its
value, or returns none when the key is absent. -/
def btRemove (k : Nat) : List (Nat × Nat) → Option (Nat × List (Nat × Nat))
  | [] => none
  | (p, l) :: rest =>
    if k = p then some (l, rest)
    else match btRemove k rest with
      | some (v, rest₂) => some (v, (p, l) :: rest₂)
      | none => none

/-- Sum of the lengths of all live entries. -/
def sumLens (l : List (Nat × Nat)) : Nat := (l.map Prod.snd).sum

namespace Lab

/-- BaseAllocator::init for LabByteAllocator. -/
def init (start size : Nat) : Lab :=
  { start := start, stop := wadd start size, inner := [], used := 0 }

/-- The gap scan of LabByteAllocator::alloc: walk the live entries in
ascending key order tracking prev, return the chosen aligned address of
the first gap that fits, including the guarded trailing gap before stop;
none when no gap is selected. -/
def allocScan (size align stop : Nat) : Nat → List (Nat × Nat) → Option Nat
  | prev, [] =>
    if stop > prev then
      if wadd (roundUpTo prev align) size ≤ stop then some (roundUpTo prev align)
      else none
    else none
  | prev, (ptr, len) :: rest =>
    if wadd (roundUpTo prev align) size ≤ ptr then some (roundUpTo prev align)
    else allocScan size align stop (wadd ptr len) rest

/-- ByteAllocator::alloc for LabByteAllocator. -/
def alloc (s : Lab) (size align : Nat) : Lab × Except AllocError Nat :=
  if wadd s.used size > wsub s.stop s.start then (s, .error .NoMemory)
  else match allocScan size align s.stop s.start s.inner with
    | some aligned_start =>
      ({ s with inner := btInsert aligned_start size s.inner,
                used := wadd s.used size }, .ok aligned_start)
    | none => (s, .error .NotAllocated)

/-- ByteAllocator::dealloc for LabByteAllocator. -/
def dealloc (s : Lab) (ptr_addr : Nat) : Lab :=
  match btRemove ptr_addr s.inner with
  | some (len, inner₂) => { s with inner := inner₂, used := wsub s.used len }
  | none => s

/-- BaseAllocator::add_memory for LabByteAllocator is unimplemented!():
it panics and never returns.  A panic is modelled as none. -/
def add_memory (s : Lab) (start size : Nat) : Option (Lab × Except AllocError Unit) :=
  none

/-- ByteAllocator::total_bytes. -/
def total_bytes (s : Lab) : Nat := wsub s.stop s.start

/-- ByteAllocator::used_bytes. -/
def used_bytes (s : Lab) : Nat := s.used

/-- ByteAllocator::available_bytes. -/
def available_bytes (s : Lab) : Nat := s.total_bytes - s.used

end Lab

/-- Sorted-and-separated chain of entries: each entry starts no earlier
than the running lower bound, has positive length, and the bound after the
last entry is at most stop.  This packages sortedness, pairwise
disjointness and containment in [lo, stop). -/
def ChainFrom (stop : Nat) : Nat → List (Nat × Nat) → Prop
  | lo, [] => lo ≤ stop
  | lo, (p, l) :: rest => lo ≤ p ∧ 1 ≤ l ∧ ChainFrom stop (p + l) rest

instance instDecChainFrom (stop : Nat) :
    (lo : Nat) → (xs : List (Nat × Nat)) → Decidable (ChainFrom stop lo xs)
  | lo, [] => inferInstanceAs (Decidable (lo ≤ stop))
  | lo, (p, l) :: rest =>
    have : Decidable (ChainFrom stop (p + l) rest) := instDecChainFrom stop (p + l) rest
    inferInstanceAs (Decidable (_ ∧ _ ∧ _))

/-- Well-formedness of a free-list allocator state: the entries form a
chain from start bounded by stop, used is the sum of the live lengths, and
stop fits in 2 ^ 63 so that the arithmetic is exact. -/
def LabWF (s : Lab) : Prop :=
  ChainFrom s.stop s.start s.inner ∧ s.used = sumLens s.inner ∧ s.stop ≤ 2 ^ 63

instance (s : Lab) : Decidable (LabWF s) := by unfold LabWF; infer_instance

theorem chainFrom_le {stop lo : Nat} :
    ∀ {xs : List (Nat × Nat)}, ChainFrom stop lo xs → lo ≤ stop := by
  intro xs
  induction xs generalizing lo with
  | nil => exact fun h => h
  | cons e rest ih =>
    obtain ⟨p, l⟩ := e
    rintro ⟨h1, h2, h3⟩
    have := ih h3
    omega

theorem chainFrom_mono {stop lo₂ : Nat} {xs : List (Nat × Nat)} :
    ∀ {lo₁}, ChainFrom stop lo₁ xs → lo₂ ≤ lo₁ → ChainFrom stop lo₂ xs := by
  cases xs with
  | nil => intro lo₁ h hle; exact le_trans hle h
  | cons e rest =>
    obtain ⟨p, l⟩ := e
    rintro lo₁ ⟨h1, h2, h3⟩ hle
    exact ⟨by omega, h2, h3⟩

theorem chainFrom_sum_le {stop : Nat} :
    ∀ {xs : List (Nat × Nat)} {lo}, ChainFrom stop lo xs → lo + sumLens xs ≤ stop := by
  intro xs
  induction xs with
  | nil => intro lo h; simpa [sumLens] using h
  | cons e rest ih =>
    obtain ⟨p, l⟩ := e
    rintro lo ⟨h1, h2, h3⟩
    have := ih h3
    simp only [sumLens, List.map_cons, List.sum_cons] at this ⊢
    omega

/-- The gaps of a state, in ascending address order, as (gap_start,
gap_end) pairs: between prev and each live entry, plus the trailing gap
before stop.  This follows the wording of the spec. -/
def gapsFrom (stop : Nat) : Nat → List (Nat × Nat) → List (Nat × Nat)
  | prev, [] => [(prev, stop)]
  | prev, (p, l) :: rest => (prev, p) :: gapsFrom stop (p + l) rest

/-- All gaps of a free-list state, in ascending address order. -/
def gapsOf (s : Lab) : List (Nat × Nat) := gapsFrom s.stop s.start s.inner

/-- A gap satisfies a request when the aligned candidate address plus the
size fits inside the gap, as the spec words it. -/
def gapFits (size align : Nat) (g : Nat × Nat) : Bool :=
  decide (specRoundUp g.1 align + size ≤ g.2)

/-- First-fit answer as the spec words it: the aligned start of the first
gap, in ascending address order, that fits the request. -/
def specFirstFit (s : Lab) (size align : Nat) : Option Nat :=
  ((gapsOf s).find? (gapFits size align)).map fun g => specRoundUp g.1 align

theorem specRoundUp_ge {align : Nat} (x : Nat) (ha : 0 < align) :
    x ≤ specRoundUp x align := by
  unfold specRoundUp
  have hdm := Nat.div_add_mod (x + align - 1) align
  have hlt := Nat.mod_lt (x + align - 1) ha
  omega

theorem roundUpTo_eq_spec (x : Nat) {align : Nat} (hal : Pow2 align = true)
    (hx : x ≤ 2 ^ 63) : roundUpTo x align = specRoundUp x align := by
  obtain ⟨k, hk, rfl⟩ := pow2_elim hal
  have h2k : (2:Nat) ^ k ≤ 2 ^ 63 := Nat.pow_le_pow_right (by omega) (by omega)
  have h2kpos : (0:Nat) < 2 ^ k := Nat.pos_pow_of_pos k (by omega)
  have hx64 : x + 2 ^ k - 1 < 2 ^ 64 := by
    have : (2:Nat) ^ 63 + 2 ^ 63 = 2 ^ 64 := by norm_num
    omega
  rw [roundUpTo_eq x k hx64 (by omega), specRoundUp]

theorem roundUpTo_le_word_pow2 (x : Nat) {align : Nat} (hal : Pow2 align = true)
    (hx : x ≤ 2 ^ 63) : roundUpTo x align ≤ 2 ^ 63 := by
  obtain ⟨k, hk, rfl⟩ := pow2_elim hal
  exact roundUpTo_le_word x k hx (by omega)

/-- Helper bounds used throughout the scan proofs. -/
theorem scan_align_facts {align : Nat} (prev size : Nat) (hal : Pow2 align = true)
    (hprev : prev ≤ 2 ^ 63) (hszb : size < 2 ^ 63) :
    prev ≤ roundUpTo prev align ∧ roundUpTo prev align ≤ 2 ^ 63 ∧
    wadd (roundUpTo prev align) size = roundUpTo prev align + size ∧
    roundUpTo prev align = specRoundUp prev align := by
  have hub : roundUpTo prev align ≤ 2 ^ 63 := roundUpTo_le_word_pow2 prev hal hprev
  have hspec := roundUpTo_eq_spec prev hal hprev
  have hge : prev ≤ roundUpTo prev align := by
    rw [hspec]; exact specRoundUp_ge prev (pow2_pos hal)
  have hwadd : wadd (roundUpTo prev align) size = roundUpTo prev align + size :=
    wadd_eq (by
      have : (2:Nat) ^ 63 + 2 ^ 63 = 2 ^ 64 := by norm_num
      omega)
  exact ⟨hge, hub, hwadd, hspec⟩

/-- A successful gap scan returns an address at or after prev, and
re-inserting it as a fresh entry of the requested (positive) size
preserves the chain and adds exactly size to the entry-length total. -/
theorem allocScan_some {size align stop : Nat} (hstop : stop ≤ 2 ^ 63)
    (hal : Pow2 align = true) (hsz1 : 1 ≤ size) (hszb : size < 2 ^ 63) :
    ∀ (xs : List (Nat × Nat)) (prev a : Nat), ChainFrom stop prev xs →
      Lab.allocScan size align stop prev xs = some a →
      prev ≤ a ∧ ChainFrom stop prev (btInsert a size xs) ∧
      sumLens (btInsert a size xs) = sumLens xs + size := by
  intro xs
  induction xs with
  | nil =>
    intro prev a hch hscan
    have hprev : prev ≤ 2 ^ 63 := le_trans hch hstop
    obtain ⟨hge, hub, hwadd, hspec⟩ := scan_align_facts prev size hal hprev hszb
    simp only [Lab.allocScan, hwadd] at hscan
    by_cases h1 : stop > prev
    · rw [if_pos h1] at hscan
      by_cases h2 : roundUpTo prev align + size ≤ stop
      · rw [if_pos h2] at hscan
        obtain rfl : roundUpTo prev align = a := by exact Option.some.inj hscan
        refine ⟨hge, ?_, ?_⟩
        · exact ⟨hge, hsz1, h2⟩
        · simp [btInsert, sumLens]
      · rw [if_neg h2] at hscan; exact absurd hscan (by simp)
    · rw [if_neg h1] at hscan; exact absurd hscan (by simp)
  | cons e rest ih =>
    obtain ⟨p, l⟩ := e
    rintro prev a ⟨hp, hl, hrest⟩ hscan
    have hpl : p + l ≤ stop := chainFrom_le hrest
    have hprev : prev ≤ 2 ^ 63 := by omega
    obtain ⟨hge, hub, hwadd, hspec⟩ := scan_align_facts prev size hal hprev hszb
    simp only [Lab.allocScan, hwadd] at hscan
    by_cases hfit : roundUpTo prev align + size ≤ p
    · rw [if_pos hfit] at hscan
      obtain rfl : roundUpTo prev align = a := by exact Option.some.inj hscan
      have halt : roundUpTo prev align < p := by omega
      refine ⟨hge, ?_, ?_⟩
      · simp only [btInsert, if_pos halt]
        exact ⟨hge, hsz1, by exact ⟨hfit, hl, hrest⟩⟩
      · simp only [btInsert, if_pos halt, sumLens, List.map_cons, List.sum_cons]
        omega
    · rw [if_neg hfit] at hscan
      have hwpl : wadd p l = p + l := wadd_eq (by
        have : (2:Nat) ^ 63 < 2 ^ 64 := by norm_num
        omega)
      rw [hwpl] at hscan
      obtain ⟨hge₂, hch₂, hsum₂⟩ := ih (p + l) a hrest hscan
      have hap : p < a := by omega
      refine ⟨by omega, ?_, ?_⟩
      · simp only [btInsert, if_neg (by omega : ¬ a < p), if_neg (by omega : ¬ a = p)]
        exact ⟨hp, hl, hch₂⟩
      · simp only [btInsert, if_neg (by omega : ¬ a < p), if_neg (by omega : ¬ a = p),
          sumLens, List.map_cons, List.sum_cons] at hsum₂ ⊢
        omega

/-- A successful gap scan lands exactly on the first fitting gap, in
ascending address order, and returns its aligned start. -/
theorem allocScan_firstFit {size align stop : Nat} (hstop : stop ≤ 2 ^ 63)
    (hal : Pow2 align = true) (hszb : size < 2 ^ 63) :
    ∀ (xs : List (Nat × Nat)) (prev a : Nat), ChainFrom stop prev xs →
      Lab.allocScan size align stop prev xs = some a →
      ((gapsFrom stop prev xs).find? (gapFits size align)).map
        (fun g => specRoundUp g.1 align) = some a := by
  intro xs
  induction xs with
  | nil =>
    intro prev a hch hscan
    have hprev : prev ≤ 2 ^ 63 := le_trans hch hstop
    obtain ⟨hge, hub, hwadd, hspec⟩ := scan_align_facts prev size hal hprev hszb
    simp only [Lab.allocScan, hwadd] at hscan
    by_cases h1 : stop > prev
    · rw [if_pos h1] at hscan
      by_cases h2 : roundUpTo prev align + size ≤ stop
      · rw [if_pos h2] at hscan
        obtain rfl : roundUpTo prev align = a := by exact Option.some.inj hscan
        have hfits : gapFits size align (prev, stop) = true := by
          simp only [gapFits, decide_eq_true_eq]
          rw [← hspec]; exact h2
        simp [gapsFrom, List.find?, hfits, hspec]
      · rw [if_neg h2] at hscan; exact absurd hscan (by simp)
    · rw [if_neg h1] at hscan; exact absurd hscan (by simp)
  | cons e rest ih =>
    obtain ⟨p, l⟩ := e
    rintro prev a ⟨hp, hl, hrest⟩ hscan
    have hpl : p + l ≤ stop := chainFrom_le hrest
    have hprev : prev ≤ 2 ^ 63 := by omega
    obtain ⟨hge, hub, hwadd, hspec⟩ := scan_align_facts prev size hal hprev hszb
    simp only [Lab.allocScan, hwadd] at hscan
    by_cases hfit : roundUpTo prev align + size ≤ p
    · rw [if_pos hfit] at hscan
      obtain rfl : roundUpTo prev align = a := by exact Option.some.inj hscan
      have hfits : gapFits size align (prev, p) = true := by
        simp only [gapFits, decide_eq_true_eq]
        rw [← hspec]; exact hfit
      simp [gapsFrom, List.find?, hfits, hspec]
    · rw [if_neg hfit] at hscan
      have hwpl : wadd p l = p + l := wadd_eq (by
        have : (2:Nat) ^ 63 < 2 ^ 64 := by norm_num
        omega)
      rw [hwpl] at hscan
      have hnofit : gapFits size align (prev, p) = false := by
        simp only [gapFits, decide_eq_false_iff_not]
        rw [← hspec]; omega
      have := ih (p + l) a hrest hscan
      simp [gapsFrom, List.find?, hnofit]
      simpa using this

/-- A failed gap scan means no gap fits; for positive sizes the converse
holds as well, the trailing-gap emptiness guard being immaterial. -/
theorem allocScan_none {size align stop : Nat} (hstop : stop ≤ 2 ^ 63)
    (hal : Pow2 align = true) (hsz1 : 1 ≤ size) (hszb : size < 2 ^ 63) :
    ∀ (xs : List (Nat × Nat)) (prev : Nat), ChainFrom stop prev xs →
      (Lab.allocScan size align stop prev xs = none ↔
        ∀ g ∈ gapsFrom stop prev xs, gapFits size align g = false) := by
  intro xs
  induction xs with
  | nil =>
    intro prev hch
    have hprev : prev ≤ 2 ^ 63 := le_trans hch hstop
    obtain ⟨hge, hub, hwadd, hspec⟩ := scan_align_facts prev size hal hprev hszb
    simp only [Lab.allocScan, hwadd, gapsFrom, List.mem_singleton, forall_eq]
    constructor
    · intro hscan
      simp only [gapFits, decide_eq_false_iff_not]
      rw [← hspec]
      by_cases h1 : stop > prev
      · rw [if_pos h1] at hscan
        by_cases h2 : roundUpTo prev align + size ≤ stop
        · rw [if_pos h2] at hscan; exact absurd hscan (by simp)
        · omega
      · omega
    · intro hfits
      simp only [gapFits, decide_eq_false_iff_not] at hfits
      rw [← hspec] at hfits
      by_cases h1 : stop > prev
      · rw [if_pos h1, if_neg (by omega)]
      · rw [if_neg h1]
  | cons e rest ih =>
    obtain ⟨p, l⟩ := e
    rintro prev ⟨hp, hl, hrest⟩
    have hpl : p + l ≤ stop := chainFrom_le hrest
    have hprev : prev ≤ 2 ^ 63 := by omega
    obtain ⟨hge, hub, hwadd, hspec⟩ := scan_align_facts prev size hal hprev hszb
    have hwpl : wadd p l = p + l := wadd_eq (by
      have : (2:Nat) ^ 63 < 2 ^ 64 := by norm_num
      omega)
    simp only [Lab.allocScan, hwadd, hwpl, gapsFrom, List.mem_cons, forall_eq_or_imp]
    by_cases hfit : roundUpTo prev align + size ≤ p
    · rw [if_pos hfit]
      have hfits : gapFits size align (prev, p) = true := by
        simp only [gapFits, decide_eq_true_eq]
        rw [← hspec]; exact hfit
      simp [hfits]
    · rw [if_neg hfit]
      have hnofit : gapFits size align (prev, p) = false := by
        simp only [gapFits, decide_eq_false_iff_not]
        rw [← hspec]; omega
      rw [ih (p + l) hrest]
      simp [hnofit]

theorem lab_start_le_stop {s : Lab} (hWF : LabWF s) : s.start ≤ s.stop :=
  chainFrom_le hWF.1

theorem lab_used_le {s : Lab} (hWF : LabWF s) : s.used ≤ s.stop - s.start := by
  obtain ⟨hch, hsum, hstop⟩ := hWF
  have := chainFrom_sum_le hch
  omega

/-- Exact characterization of LabByteAllocator::alloc from a well-formed
state: the pre-check failure, the successful scan, and the failed scan,
with all arithmetic exact. -/
theorem lab_alloc_cases (s : Lab) (size align : Nat) (hWF : LabWF s)
    (hszb : size < 2 ^ 63) :
    (s.stop - s.start < s.used + size → s.alloc size align = (s, .error .NoMemory)) ∧
    (s.used + size ≤ s.stop - s.start →
      (∀ a, Lab.allocScan size align s.stop s.start s.inner = some a →
        s.alloc size align =
          ({ s with inner := btInsert a size s.inner, used := s.used + size }, .ok a)) ∧
      (Lab.allocScan size align s.stop s.start s.inner = none →
        s.alloc size align = (s, .error .NotAllocated))) := by
  have hss := lab_start_le_stop hWF
  have hstop63 := hWF.2.2
  have hused := lab_used_le hWF
  have hwadd : wadd s.used size = s.used + size := wadd_eq (by
    have : (2:Nat) ^ 63 + 2 ^ 63 = 2 ^ 64 := by norm_num
    omega)
  have hwsub : wsub s.stop s.start = s.stop - s.start :=
    wsub_eq hss (by
      have : (2:Nat) ^ 63 < 2 ^ 64 := by norm_num
      omega)
  refine ⟨?_, ?_⟩
  · intro hover
    simp only [Lab.alloc, hwadd, hwsub]
    rw [if_pos (by omega)]
  · intro hfit
    constructor
    · intro a hscan
      simp only [Lab.alloc, hwadd, hwsub]
      rw [if_neg (by omega), hscan]
    · intro hscan
      simp only [Lab.alloc, hwadd, hwsub]
      rw [if_neg (by omega), hscan]

theorem lab_alloc_WF {s : Lab} {size align : Nat} (hWF : LabWF s)
    (hal : Pow2 align = true) (hsz1 : 1 ≤ size) (hszb : size < 2 ^ 63) :
    LabWF (s.alloc size align).1 := by
  obtain ⟨hpre, hrest⟩ := lab_alloc_cases s size align hWF hszb
  by_cases hover : s.stop - s.start < s.used + size
  · rw [hpre hover]; exact hWF
  · obtain ⟨hok, hnone⟩ := hrest (by omega)
    cases hscan : Lab.allocScan size align s.stop s.start s.inner with
    | none => rw [hnone hscan]; exact hWF
    | some a =>
      rw [hok a hscan]
      obtain ⟨hch, hsum, hstop63⟩ := hWF
      obtain ⟨hge, hch₂, hsum₂⟩ := allocScan_some hstop63 hal hsz1 hszb s.inner s.start a hch hscan
      exact ⟨hch₂, by simp only; omega, hstop63⟩

theorem btRemove_chain {k : Nat} :
    ∀ {xs : List (Nat × Nat)} {v : Nat} {xs₂ : List (Nat × Nat)} {stop lo : Nat},
      ChainFrom stop lo xs → btRemove k xs = some (v, xs₂) →
      ChainFrom stop lo xs₂ ∧ sumLens xs = sumLens xs₂ + v := by
  intro xs
  induction xs with
  | nil => intro v xs₂ stop lo _ h; exact absurd h (by simp [btRemove])
  | cons e rest ih =>
    obtain ⟨p, l⟩ := e
    rintro v xs₂ stop lo ⟨hp, hl, hrest⟩ hrem
    simp only [btRemove] at hrem
    by_cases hk : k = p
    · rw [if_pos hk] at hrem
      obtain ⟨rfl, rfl⟩ := Prod.mk.injEq .. ▸ Option.some.inj hrem
      refine ⟨chainFrom_mono hrest (by omega), ?_⟩
      simp [sumLens, Nat.add_comm]
    · rw [if_neg hk] at hrem
      cases hrem₂ : btRemove k rest with
      | none => rw [hrem₂] at hrem; exact absurd hrem (by simp)
      | some vr =>
        obtain ⟨v₂, rest₂⟩ := vr
        rw [hrem₂] at hrem
        obtain ⟨rfl, rfl⟩ := Prod.mk.injEq .. ▸ Option.some.inj hrem
        obtain ⟨hch₂, hsum₂⟩ := ih hrest hrem₂
        refine ⟨⟨hp, hl, hch₂⟩, ?_⟩
        simp only [sumLens, List.map_cons, List.sum_cons] at hsum₂ ⊢
        omega

theorem lab_dealloc_WF {s : Lab} (addr : Nat) (hWF : LabWF s) :
    LabWF (s.dealloc addr) := by
  obtain ⟨hch, hsum, hstop63⟩ := hWF
  unfold Lab.dealloc
  cases hrem : btRemove addr s.inner with
  | none => exact ⟨hch, hsum, hstop63⟩
  | some vr =>
    obtain ⟨len, inner₂⟩ := vr
    obtain ⟨hch₂, hsum₂⟩ := btRemove_chain hch hrem
    have hlen : len ≤ s.used := by omega
    have hused63 : s.used ≤ 2 ^ 63 := by
      have := chainFrom_sum_le hch
      omega
    have hwsub : wsub s.used len = s.used - len := wsub_eq hlen (by
      have : (2:Nat) ^ 63 < 2 ^ 64 := by norm_num
      omega)
    simp only [hwsub]
    exact ⟨hch₂, by simp only; omega, hstop63⟩

theorem btRemove_not_mem {k : Nat} :
    ∀ {xs : List (Nat × Nat)}, k ∉ xs.map Prod.fst → btRemove k xs = none := by
  intro xs
  induction xs with
  | nil => intro _; rfl
  | cons e rest ih =>
    obtain ⟨p, l⟩ := e
    intro hk
    simp only [List.map_cons, List.mem_cons, not_or] at hk
    simp only [btRemove, if_neg hk.1, ih hk.2]

/-- An operation against the free-list allocator. -/
inductive LOp where
  | la (size align : Nat)
  | ld (addr : Nat)
deriving DecidableEq, Repr

/-- Run a list of alloc/dealloc operations against the free-list state. -/
def runLab : Lab → List LOp → Lab
  | s, [] => s
  | s, .la size align :: rest => runLab (s.alloc size align).1 rest
  | s, .ld addr :: rest => runLab (s.dealloc addr) rest

/-- Validity of an operation trace against the free-list allocator: each
alloc carries a power-of-two alignment and a positive size below 2 ^ 63;
dealloc addresses are arbitrary. -/
def goodLOps : List LOp → Bool
  | [] => true
  | .la size align :: rest =>
    Pow2 align && decide (1 ≤ size) && decide (size < 2 ^ 63) && goodLOps rest
  | .ld _ :: rest => goodLOps rest

theorem runLab_WF : ∀ (ops : List LOp) (s : Lab), LabWF s → goodLOps ops = true →
    LabWF (runLab s ops) := by
  intro ops
  induction ops with
  | nil => intro s hWF _; exact hWF
  | cons op rest ih =>
    intro s hWF hgood
    cases op with
    | la size align =>
      simp only [goodLOps, Bool.and_eq_true, decide_eq_true_eq] at hgood
      obtain ⟨⟨⟨hal, hsz1⟩, hszb⟩, hgrest⟩ := hgood
      exact ih _ (lab_alloc_WF hWF hal hsz1 hszb) hgrest
    | ld addr =>
      simp only [goodLOps] at hgood
      exact ih _ (lab_dealloc_WF addr hWF) hgood

/-- Claim-facing invariant of the free-list allocator: live entries are
pairwise non-overlapping, each lies inside [start, stop), and used equals
the sum of the live entry lengths. -/
def LabInv (s : Lab) : Prop :=
  List.Pairwise (fun e₁ e₂ => e₁.1 + e₁.2 ≤ e₂.1 ∨ e₂.1 + e₂.2 ≤ e₁.1) s.inner ∧
  (∀ e ∈ s.inner, s.start ≤ e.1 ∧ e.1 + e.2 ≤ s.stop) ∧
  s.used = sumLens s.inner

instance (s : Lab) : Decidable (LabInv s) := by unfold LabInv; infer_instance

theorem chainFrom_props {stop : Nat} :
    ∀ {xs : List (Nat × Nat)} {lo : Nat}, ChainFrom stop lo xs →
      List.Pairwise (fun e₁ e₂ => e₁.1 + e₁.2 ≤ e₂.1 ∨ e₂.1 + e₂.2 ≤ e₁.1) xs ∧
      ∀ e ∈ xs, lo ≤ e.1 ∧ e.1 + e.2 ≤ stop := by
  intro xs
  induction xs with
  | nil => intro lo _; exact ⟨List.Pairwise.nil, by simp⟩
  | cons e rest ih =>
    obtain ⟨p, l⟩ := e
    rintro lo ⟨hp, hl, hrest⟩
    obtain ⟨ipw, ibnd⟩ := ih hrest
    have hplstop := chainFrom_le hrest
    refine ⟨List.pairwise_cons.mpr ⟨?_, ipw⟩, ?_⟩
    · intro e₂ he₂
      exact Or.inl (by have := (ibnd e₂ he₂).1; simp only; omega)
    · intro e₂ he₂
      rcases List.mem_cons.mp he₂ with rfl | he₂
      · exact ⟨hp, hplstop⟩
      · have := ibnd e₂ he₂
        exact ⟨by omega, this.2⟩

theorem labWF_inv {s : Lab} (hWF : LabWF s) : LabInv s := by
  obtain ⟨hch, hsum, _⟩ := hWF
  obtain ⟨hpw, hbnd⟩ := chainFrom_props hch
  exact ⟨hpw, hbnd, hsum⟩

theorem lab_init_WF {start size : Nat} (h : start + size ≤ 2 ^ 63) :
    LabWF (Lab.init start size) ∧ (Lab.init start size).stop = start + size := by
  have hw : wadd start size = start + size := wadd_eq (by
    have : (2:Nat) ^ 63 < 2 ^ 64 := by norm_num
    omega)
  refine ⟨⟨?_, ?_, ?_⟩, ?_⟩ <;> simp [Lab.init, hw, ChainFrom, sumLens] <;> omega

/-!
Claim theorems.
-/

/-- Claim C1 (counterexample): the free-list invariant is not preserved by
every alloc/dealloc sequence.  After init(0, 100), alloc(10, 1) and then
alloc(0, 1), the zero-size request is satisfied inside the empty gap
[0, 0) and the map insert at key 0 overwrites the live entry (0, 10) with
(0, 0), so used = 10 while the entry lengths sum to 0. -/
theorem C1_counterexample :
    ¬ LabInv (runLab (Lab.init 0 100) [.la 10 1, .la 0 1]) ∧
    (runLab (Lab.init 0 100) [.la 10 1, .la 0 1]).used = 10 ∧
    sumLens (runLab (Lab.init 0 100) [.la 10 1, .la 0 1]).inner = 0 := by
  refine ⟨?_, by decide, by decide⟩
  decide

/-- Claim C1 (amended): for every sequence of alloc/dealloc calls after
init in which every alloc has positive size (and a power-of-two alignment,
with sizes below 2 ^ 63 and the range inside the word), at every point the
live entries are pairwise non-overlapping, every entry lies within
[start, stop), and used equals the sum of the live entry lengths. -/
theorem C1_invariant (start size : Nat) (ops : List LOp)
    (hrange : start + size ≤ 2 ^ 63) (hops : goodLOps ops = true) :
    LabInv (runLab (Lab.init start size) ops) :=
  labWF_inv (runLab_WF ops (Lab.init start size) (lab_init_WF hrange).1 hops)

/-- Claim C1 (witness). -/
theorem C1_witness :
    LabInv (runLab (Lab.init 0 100) [.la 10 1, .la 20 2, .ld 0, .la 5 4]) :=
  C1_invariant 0 100 [.la 10 1, .la 20 2, .ld 0, .la 5 4] (by norm_num) (by decide)

/-- Claim C2 (code bug): the cursor invariant is not preserved by every
alloc_pages call.  With PAGE_SIZE = 4096, after init(0, 4096) a first
alloc_pages(1, 4096) legitimately fills the arena (p_pos = 0, the state
still well-formed); a second alloc_pages(1, 4096) computes
p_pos - num_pages * PAGE_SIZE on usize, underflows, and wrap-succeeds
with p_pos = 2 ^ 64 - 4096, far above end, so
start ≤ b_pos ≤ p_pos ≤ end is violated (a debug build panics on the same
input).  Preservation does hold for init, byte alloc, dealloc, and every
alloc_pages whose page total does not underflow the page cursor:
EA.init_WF, EA.alloc_WF, EA.dealloc_WF, EA.alloc_pages_WF. -/
theorem C2_invariant_code_bug :
    (EA.alloc_pages 4096 (EA.init 0 4096) 1 4096).1.WF ∧
    (EA.alloc_pages 4096 ((EA.alloc_pages 4096 (EA.init 0 4096) 1 4096).1) 1 4096).1.end_ <
      (EA.alloc_pages 4096 ((EA.alloc_pages 4096 (EA.init 0 4096) 1 4096).1) 1 4096).1.p_pos ∧
    ¬ (EA.alloc_pages 4096 ((EA.alloc_pages 4096 (EA.init 0 4096) 1 4096).1) 1 4096).1.WF := by
  refine ⟨by decide, by decide, by decide⟩

/-- Claim C3 (counterexample): two violations.  First, two successful
zero-size byte allocs both return address 0, so byte addresses are not
strictly increasing.  Second, with positive page counts: after
alloc_pages(1, 4096) empties the arena from init(0, 4096), a further
alloc_pages(1, 4096) wrap-succeeds on usize underflow, so the addresses
0 and 2 ^ 64 - 4096 of two successful positive-count page allocations are
not strictly decreasing (and the second region escapes the arena). -/
theorem C3_counterexample :
    (¬ List.Chain' (· < ·)
      (byteAddrs (runReqs 16 (EA.init 0 100) [.rb 0 1, .rb 0 1]).2)) ∧
    (¬ List.Chain' (· > ·)
      (pageAddrs (runReqs 4096 (EA.init 0 4096) [.rp 1 4096, .rp 1 4096]).2)) := by
  constructor
  · have h : byteAddrs (runReqs 16 (EA.init 0 100) [.rb 0 1, .rb 0 1]).2 = [0, 0] := by
      decide
    rw [h]
    intro hc
    exact absurd (List.chain'_cons.mp hc).1 (by omega)
  · have h : pageAddrs (runReqs 4096 (EA.init 0 4096) [.rp 1 4096, .rp 1 4096]).2 =
        [0, 2 ^ 64 - 4096] := by decide
    rw [h]
    intro hc
    exact absurd (List.chain'_cons.mp hc).1 (by omega)

/-- Claim C3 (amended): for every request trace from a well-formed state
in which every byte request has positive size, every page request has
positive count, alignments are powers of two, and no page request has a
page total num_pages * PAGE_SIZE exceeding the current page cursor (on
such underflow the code wrap-succeeds with a garbage address, the bug of
the counterexample), the addresses of successive successful byte allocs
strictly increase, the addresses of successive successful alloc_pages
calls strictly decrease, all allocated regions are pairwise disjoint, and
no region crosses the opposite cursor.  goodReqs states exactly these
per-request conditions. -/
theorem C3_bump_addresses (PS : Nat) (s : EA) (l : List Req)
    (hPS : Pow2 PS = true) (hWF : s.WF) (hgood : goodReqs PS s l = true) :
    List.Chain' (· < ·) (byteAddrs (runReqs PS s l).2) ∧
    List.Chain' (· > ·) (pageAddrs (runReqs PS s l).2) ∧
    List.Pairwise Disj (runReqs PS s l).2 ∧
    (∀ e ∈ (runReqs PS s l).2,
      (e.1 = true → e.2.1 + e.2.2 ≤ (runReqs PS s l).1.p_pos) ∧
      (e.1 = false → (runReqs PS s l).1.b_pos ≤ e.2.1)) := by
  obtain ⟨iWF, imb, imp, ievs, ipw, icb, icp⟩ := runReqs_master PS hPS l s hWF hgood
  refine ⟨icb, icp, ipw, ?_⟩
  intro e he
  obtain ⟨i1, i2, i3, i4⟩ := ievs e he
  obtain ⟨w1, w2, w3, w4⟩ := iWF
  constructor
  · intro hb
    have := i3 hb
    omega
  · intro hb
    have := (i4 hb).1
    omega

/-- Claim C3 (witness). -/
theorem C3_witness :
    List.Chain' (· < ·)
      (byteAddrs (runReqs 16 (EA.init 0 1024) [.rb 10 1, .rp 2 16, .rb 5 4]).2) ∧
    List.Chain' (· > ·)
      (pageAddrs (runReqs 16 (EA.init 0 1024) [.rb 10 1, .rp 2 16, .rb 5 4]).2) ∧
    List.Pairwise Disj (runReqs 16 (EA.init 0 1024) [.rb 10 1, .rp 2 16, .rb 5 4]).2 ∧
    (∀ e ∈ (runReqs 16 (EA.init 0 1024) [.rb 10 1, .rp 2 16, .rb 5 4]).2,
      (e.1 = true → e.2.1 + e.2.2 ≤
        (runReqs 16 (EA.init 0 1024) [.rb 10 1, .rp 2 16, .rb 5 4]).1.p_pos) ∧
      (e.1 = false → (runReqs 16 (EA.init 0 1024) [.rb 10 1, .rp 2 16, .rb 5 4]).1.b_pos ≤ e.2.1)) :=
  C3_bump_addresses 16 (EA.init 0 1024) [.rb 10 1, .rp 2 16, .rb 5 4]
    (by decide) (by decide) (by decide)

/-- Claim C4: from any well-formed free-list state, a successful
alloc(size, align) with a power-of-two align returns the aligned start of
the first gap, in ascending address order (trailing gap included), that
fits the aligned request; it never selects a later gap when an earlier one
fits. -/
theorem C4_first_fit (s : Lab) (size align a : Nat) (hWF : LabWF s)
    (hal : Pow2 align = true) (hszb : size < 2 ^ 63)
    (hok : (s.alloc size align).2 = .ok a) :
    specFirstFit s size align = some a := by
  obtain ⟨hpre, hrest⟩ := lab_alloc_cases s size align hWF hszb
  by_cases hover : s.stop - s.start < s.used + size
  · rw [hpre hover] at hok
    exact absurd hok (by simp)
  · obtain ⟨hsome, hnone⟩ := hrest (by omega)
    cases hscan : Lab.allocScan size align s.stop s.start s.inner with
    | none =>
      rw [hnone hscan] at hok
      exact absurd hok (by simp)
    | some a₂ =>
      rw [hsome a₂ hscan] at hok
      obtain rfl : a₂ = a := by simpa using hok
      exact allocScan_firstFit hWF.2.2 hal hszb s.inner s.start a₂ hWF.1 hscan

/-- Claim C4 (witness): after init(0, 100), alloc(10, 1), alloc(20, 1) and
dealloc(0), the gap at address 0 is reopened and a request of size 5 lands
there first. -/
theorem C4_witness :
    specFirstFit (runLab (Lab.init 0 100) [.la 10 1, .la 20 1, .ld 0]) 5 1 = some 0 :=
  C4_first_fit (runLab (Lab.init 0 100) [.la 10 1, .la 20 1, .ld 0]) 5 1 0
    (by decide) (by decide) (by norm_num) (by decide)

/-- Claim C5 (code bug): alloc_pages does not have exactly the two
claimed outcomes.  On an exhausted arena (p_pos = 0 after a first
alloc_pages(1, 4096) from init(0, 4096)), a further alloc_pages(1, 4096)
request has a page total exceeding the page cursor and should fail with
NoMemory; instead the usize subtraction p_pos - num_pages * PAGE_SIZE
underflows and the call wrap-succeeds, returning the garbage address
2 ^ 64 - 4096 and committing it as the new page cursor (a debug build
panics instead; neither outcome is the claimed NoMemory).  The claimed
two-outcome characterization does hold whenever the page total does not
underflow the cursor: EA.alloc_pages_spec. -/
theorem C5_pages_underflow_bug :
    1 * 4096 > ((EA.alloc_pages 4096 (EA.init 0 4096) 1 4096).1).p_pos ∧
    (EA.alloc_pages 4096 ((EA.alloc_pages 4096 (EA.init 0 4096) 1 4096).1) 1 4096).2 =
      .ok (2 ^ 64 - 4096) ∧
    (EA.alloc_pages 4096 ((EA.alloc_pages 4096 (EA.init 0 4096) 1 4096).1) 1 4096).1.p_pos =
      2 ^ 64 - 4096 := by
  refine ⟨by decide, by decide, by decide⟩

/-- Claim C6 (counterexample): add_memory does not return an
unsupported/not-implemented error value; in both implementations it is a
not-implemented panic, which returns nothing at all (modelled as none
rather than some state/error pair). -/
theorem C6_counterexample :
    EA.add_memory (EA.init 0 100) 0 100 = none ∧
    Lab.add_memory (Lab.init 0 100) 0 100 = none :=
  ⟨rfl, rfl⟩

/-- Claim C6 (amended): for every state and every (start, size),
add_memory in both implementations panics as unimplemented: it never
returns normally (hence never returns an error value), and no state is
ever produced or mutated by it. -/
theorem C6_add_memory_unsupported :
    ∀ (s : EA) (t : Lab) (a b c d : Nat),
      EA.add_memory s a b = none ∧ Lab.add_memory t c d = none :=
  fun _ _ _ _ _ _ => ⟨rfl, rfl⟩

/-- Claim C7: dealloc on the bump allocator decrements the count by one
saturating at zero; exactly when the new count is zero it resets b_pos to
start, making used_bytes 0; otherwise b_pos, used_bytes and every other
field except the count are unchanged. -/
theorem C7_bump_dealloc (s : EA) :
    s.dealloc.count = s.count - 1 ∧
    (s.dealloc.count = 0 → s.dealloc.b_pos = s.start ∧ s.dealloc.used_bytes = 0) ∧
    (0 < s.dealloc.count →
      s.dealloc.b_pos = s.b_pos ∧ s.dealloc.used_bytes = s.used_bytes ∧
      s.dealloc.p_pos = s.p_pos ∧ s.dealloc.start = s.start ∧
      s.dealloc.end_ = s.end_) := by
  unfold EA.dealloc EA.used_bytes
  by_cases h : s.count - 1 = 0
  · rw [if_pos h]
    refine ⟨rfl, fun _ => ⟨rfl, wsub_self s.start⟩, fun hc => ?_⟩
    have hc₂ : 0 < s.count - 1 := hc
    omega
  · rw [if_neg h]
    refine ⟨rfl, fun hc => ?_, fun _ => ⟨rfl, rfl, rfl, rfl, rfl⟩⟩
    have hc₂ : s.count - 1 = 0 := hc
    exact absurd hc₂ h

/-- Claim C7 (witness): a dealloc that keeps the count positive and one
that drops it to zero. -/
theorem C7_witness :
    (EA.dealloc { start := 0, end_ := 100, b_pos := 30, p_pos := 100, count := 2 }).b_pos = 30 ∧
    (EA.dealloc { start := 0, end_ := 100, b_pos := 30, p_pos := 100, count := 1 }).b_pos = 0 ∧
    (EA.dealloc { start := 0, end_ := 100, b_pos := 30, p_pos := 100, count := 1 }).used_bytes = 0 := by
  refine ⟨?_, ?_, ?_⟩
  · exact ((C7_bump_dealloc
      { start := 0, end_ := 100, b_pos := 30, p_pos := 100, count := 2 }).2.2 (by decide)).1
  · exact ((C7_bump_dealloc
      { start := 0, end_ := 100, b_pos := 30, p_pos := 100, count := 1 }).2.1 (by decide)).1
  · exact ((C7_bump_dealloc
      { start := 0, end_ := 100, b_pos := 30, p_pos := 100, count := 1 }).2.1 (by decide)).2

/-- Claim C8: whenever alloc returns an error, the allocator state is
exactly the state before the call, for both allocators. -/
theorem C8_failed_alloc_frame :
    (∀ (s : EA) (size align : Nat) (e : AllocError),
      (s.alloc size align).2 = .error e → (s.alloc size align).1 = s) ∧
    (∀ (s : Lab) (size align : Nat) (e : AllocError),
      (s.alloc size align).2 = .error e → (s.alloc size align).1 = s) := by
  constructor
  · intro s size align e h
    unfold EA.alloc at h ⊢
    by_cases hc : s.can_alloc_bytes size align = true
    · rw [if_pos hc] at h
      exact absurd h (by simp)
    · rw [if_neg hc] at h ⊢
  · intro s size align e h
    unfold Lab.alloc at h ⊢
    by_cases hover : wadd s.used size > wsub s.stop s.start
    · rw [if_pos hover]
    · rw [if_neg hover] at h ⊢
      cases hscan : Lab.allocScan size align s.stop s.start s.inner with
      | none => simp [hscan]
      | some a =>
        simp only [hscan] at h
        exact absurd h (by simp)

/-- Claim C8 (witness): a failing byte alloc on each allocator leaves the
state unchanged. -/
theorem C8_witness :
    ((EA.init 0 8).alloc 9 1).1 = EA.init 0 8 ∧
    ((Lab.init 0 8).alloc 9 1).1 = Lab.init 0 8 :=
  ⟨C8_failed_alloc_frame.1 (EA.init 0 8) 9 1 .NoMemory (by decide),
   C8_failed_alloc_frame.2 (Lab.init 0 8) 9 1 .NoMemory (by decide)⟩

/-- Claim C9 (counterexample): NotAllocated is not equivalent to the
search finding no fitting gap.  After init(1, 63), alloc(2, 1) and
alloc(61, 1) the allocator is full with an empty trailing gap [64, 64);
the request alloc(0, 2) fails with NotAllocated although the trailing gap
fits the aligned request (round_up(64, 2) + 0 ≤ 64), because the source
skips the trailing gap when it is empty. -/
theorem C9_counterexample :
    ((runLab (Lab.init 1 63) [.la 2 1, .la 61 1]).alloc 0 2).2 =
      .error .NotAllocated ∧
    (gapsOf (runLab (Lab.init 1 63) [.la 2 1, .la 61 1])).any (gapFits 0 2) = true ∧
    (runLab (Lab.init 1 63) [.la 2 1, .la 61 1]).used + 0 ≤
      (runLab (Lab.init 1 63) [.la 2 1, .la 61 1]).stop -
      (runLab (Lab.init 1 63) [.la 2 1, .la 61 1]).start := by
  refine ⟨by decide, by decide, by decide⟩

/-- Claim C9 (amended): for a well-formed state, a power-of-two alignment
and a positive size below 2 ^ 63, alloc fails with NoMemory iff
used + size exceeds total_bytes, and fails with NotAllocated iff that
check passes but no gap, the trailing gap included, fits the aligned
request. -/
theorem C9_error_taxonomy (s : Lab) (size align : Nat) (hWF : LabWF s)
    (hal : Pow2 align = true) (hsz1 : 1 ≤ size) (hszb : size < 2 ^ 63) :
    ((s.alloc size align).2 = .error .NoMemory ↔
      s.stop - s.start < s.used + size) ∧
    ((s.alloc size align).2 = .error .NotAllocated ↔
      s.used + size ≤ s.stop - s.start ∧
      ∀ g ∈ gapsOf s, gapFits size align g = false) := by
  obtain ⟨hpre, hrest⟩ := lab_alloc_cases s size align hWF hszb
  have hiff := allocScan_none hWF.2.2 hal hsz1 hszb s.inner s.start hWF.1
  by_cases hover : s.stop - s.start < s.used + size
  · rw [hpre hover]
    constructor
    · simp [hover]
    · constructor
      · intro h
        exact absurd h (by simp)
      · intro ⟨h, _⟩
        omega
  · obtain ⟨hsome, hnone⟩ := hrest (by omega)
    cases hscan : Lab.allocScan size align s.stop s.start s.inner with
    | none =>
      rw [hnone hscan]
      constructor
      · constructor
        · intro h
          exact absurd h (by simp)
        · intro h
          omega
      · constructor
        · intro _
          exact ⟨by omega, (hiff.mp hscan)⟩
        · intro _
          rfl
    | some a =>
      rw [hsome a hscan]
      constructor
      · constructor
        · intro h; exact absurd h (by simp)
        · intro h; omega
      · constructor
        · intro h; exact absurd h (by simp)
        · intro ⟨_, hfits⟩
          have : Lab.allocScan size align s.stop s.start s.inner = none := hiff.mpr hfits
          rw [hscan] at this
          exact absurd this (by simp)

/-- Claim C9 (witness): the NoMemory side at a concrete full state. -/
theorem C9_witness :
    ((runLab (Lab.init 0 10) [.la 10 1]).alloc 1 1).2 = .error .NoMemory := by
  have h := (C9_error_taxonomy (runLab (Lab.init 0 10) [.la 10 1]) 1 1
    (by decide) (by decide) (by norm_num) (by norm_num)).1
  exact h.mpr (by decide)

/-- Claim C10: dealloc with an address that is not the start of any live
entry returns normally and leaves the whole allocator state unchanged. -/
theorem C10_dealloc_unknown_addr (s : Lab) (addr : Nat)
    (h : addr ∉ s.inner.map Prod.fst) : s.dealloc addr = s := by
  unfold Lab.dealloc
  rw [btRemove_not_mem h]

/-- Claim C10 (witness). -/
theorem C10_witness :
    (runLab (Lab.init 0 100) [.la 10 1]).dealloc 5 =
      runLab (Lab.init 0 100) [.la 10 1] :=
  C10_dealloc_unknown_addr (runLab (Lab.init 0 100) [.la 10 1]) 5 (by decide)

end Alloc
